import Mathlib

/-!
# Mandelbrot viewer: configuration reader and view-state bookkeeping

Shallow embedding of `src/config_parser.h` (class `CfgParser`) and of the
view-state functions of `src/main.cpp`.

* `std::string` is a list of characters, `std::map<std::string, std::string>`
  an association list kept in key order.
* `float` / `double` arithmetic is read as exact arithmetic over `ℚ`: the
  theorems on the view state are statements of exact arithmetic and do not
  speak of binary32 rounding. The counterexamples on the view state are at
  inputs where the rounded computation gives the same values.
* `int` is `Int`; the one addition and subtraction that can leave the 32-bit
  range (`key_callback`) wrap around explicitly.
* `std::stof` and `std::sort` are library functions: the first is a parameter
  of `parse4f`, the second a parameter of `getPalette` that is assumed to keep
  the promise of the C++ standard (`StdSort`).
* OpenGL / GLFW calls that only touch the GPU or the window are left out.
-/

namespace Mandel

/-! ## Definitions: configuration reader (`src/config_parser.h`) -/

/-- Contents of a `std::string`. -/
abbrev Str := List Char

/-- Whitespace in the sense of `std::isspace` (the "C" locale), which is what
`operator>>` on a `std::stringstream` skips and stops at. -/
def isSpace (c : Char) : Bool :=
  c = ' ' || c = '\t' || c = '\n' || c = '\x0b' || c = '\x0c' || c = '\r'

/-- The token in progress, emitted when a delimiter or the end is reached:
`operator>>` never yields an empty token. -/
def finish (cur : Str) : List Str :=
  if cur = [] then [] else [cur]

/-- Successive results of `ss >> c`, with `cur` the characters of the token
read so far. -/
def tokensAux : Str → Str → List Str
  | cur, [] => finish cur
  | cur, ch :: rest =>
    if isSpace ch then finish cur ++ tokensAux [] rest
    else tokensAux (cur ++ [ch]) rest

/-- All tokens that `while (ss >> c)` reads from the line `s`. -/
def tokens (s : Str) : List Str :=
  tokensAux [] s

/-- Successive results of `std::getline(stream, s, delim)`, with `cur` the
characters of the field read so far: a final field needs no terminating
delimiter, and a terminating delimiter opens no further empty field. -/
def getlinesAux (delim : Char) : Str → Str → List Str
  | cur, [] => finish cur
  | cur, ch :: rest =>
    if ch = delim then cur :: getlinesAux delim [] rest
    else getlinesAux delim (cur ++ [ch]) rest

/-- All lines that `while (std::getline(cin, s))` reads from a file. -/
def getlines (content : Str) : List Str :=
  getlinesAux '\n' [] content

/-- Order of `std::string::operator<`: lexicographic on character values, a
proper initial segment being smaller. -/
def strLt : Str → Str → Bool
  | [], [] => false
  | [], _ :: _ => true
  | _ :: _, [] => false
  | a :: as, b :: bs =>
    if a.toNat < b.toNat then true
    else if b.toNat < a.toNat then false
    else strLt as bs

/-- The `std::map<std::string, std::string>` of the parser, as the list of its
entries in iteration order. -/
abbrev Map := List (Str × Str)

/-- Effect of `map[k] = v`: overwrite the entry of `k`, or insert one at its
place in key order. -/
def assign : Map → Str → Str → Map
  | [], k, v => [(k, v)]
  | (k1, v1) :: rest, k, v =>
    if k = k1 then (k, v) :: rest
    else if strLt k k1 then (k, v) :: (k1, v1) :: rest
    else (k1, v1) :: assign rest k v

/-- The value stored at a key, if any. -/
def find : Map → Str → Option Str
  | [], _ => none
  | (k1, v1) :: rest, k => if k = k1 then some v1 else find rest k

/-- Inner loop of `CfgParser::parseFile` over the tokens still to be read,
with the two previous tokens `a` and `b`:
`if (c.find('#') != npos) break; if (b == "=") map[a] = c; a = b; b = c;`. -/
def lineLoop : List Str → Str → Str → Map → Map
  | [], _, _, m => m
  | c :: rest, a, b, m =>
    if '#' ∈ c then m
    else lineLoop rest b c (if b = ['='] then assign m a c else m)

/-- Body of the outer loop of `CfgParser::parseFile` for one line `s`:
`a`, `b`, `c` start out empty on every line. -/
def parseLine (m : Map) (s : Str) : Map :=
  lineLoop (tokens s) [] [] m

/-- The function `CfgParser::parseFile`, on the contents of the file, from the
map `m` held before the call. -/
def parseFile (m : Map) (content : Str) : Map :=
  (getlines content).foldl parseLine m

/-- A line cut just before the first whitespace-separated token that contains
a '#' (unchanged when it has no '#'). -/
def cutAtHashToken (s : Str) : Str :=
  if '#' ∈ s then (s.takeWhile (fun c => c != '#')).rdropWhile (fun c => !isSpace c)
  else s

/-- A line cut just before its first '#' character. -/
def cutAtHash (s : Str) : Str :=
  s.takeWhile (fun c => c != '#')

/-- The contents of a file with the given lines, each ended by a newline. -/
def joinLines : List Str → Str
  | [] => []
  | l :: ls => l ++ '\n' :: joinLines ls

/-- The test of the parser's inner loop that lets a token through: it
contains no '#'. -/
def noHash (t : Str) : Bool :=
  decide ('#' ∉ t)

/-- A configuration file with a duplicated key. -/
def cfgDup : Str := "b = 1\nb = 3\na = 2".toList

/-- A configuration line whose third token has a '#' in its middle. -/
def cfgHashInside : Str := "a = b#c".toList

/-- A configuration line with a comment after one assignment and a half. -/
def cfgComment : Str := "a = 1 b = #x c = 3".toList

/-! ## Definitions: palette extraction (`src/config_parser.h`) -/

/-- The `struct Point`: a position and an RGB triple. -/
structure Point where
  pos : ℚ
  r : ℚ
  g : ℚ
  b : ℚ
deriving DecidableEq, Repr

/-- The function `CfgParser::parse4f`: four times, read up to the next ','
and convert with `std::stof`. A field read after the end of the text is the
empty string. `stof` is the library conversion, `none` where it throws. -/
def parse4f (stof : Str → Option ℚ) (s : Str) : Option Point :=
  let fs := getlinesAux ',' [] s
  match stof (fs.getD 0 []), stof (fs.getD 1 []), stof (fs.getD 2 []),
      stof (fs.getD 3 []) with
  | some p, some r, some g, some b => some ⟨p, r, g, b⟩
  | _, _, _, _ => none

/-- The text searched for in the keys by `getPalette`. -/
def gradientKey : Str := "gradient_point".toList

/-- The test `p.first.find("gradient_point") != std::string::npos`. -/
def isGradientKey (k : Str) : Bool :=
  decide (gradientKey <:+: k)

/-- The rescaling of `getPalette`: `pos /= 100.0`, `r /= 255.0`, `g /= 255.0`,
`b /= 255.0`. -/
def rescale (p : Point) : Point :=
  ⟨p.pos / 100, p.r / 255, p.g / 255, p.b / 255⟩

/-- The loop of `CfgParser::getPalette` over the entries of the map still to
be visited, `acc` being `palette[0 .. paletteSz)`. The array `palette` has 20
slots; a write past them, or a throwing `std::stof`, gives `none`. -/
def paletteLoop (stof : Str → Option ℚ) : Map → List Point → Option (List Point)
  | [], acc => some acc
  | (k, v) :: rest, acc =>
    if isGradientKey k then
      if acc.length < 20 then
        match parse4f stof v with
        | some p => paletteLoop stof rest (acc ++ [rescale p])
        | none => none
      else none
    else paletteLoop stof rest acc

/-- The closing point `{1.0, palette[0].r, palette[0].g, palette[0].b}`; with
no point read, `palette[0]` is the zero-initialised global. -/
def closingPoint (pts : List Point) : Point :=
  let p0 := pts.headD ⟨0, 0, 0, 0⟩
  ⟨1, p0.r, p0.g, p0.b⟩

/-- The function `CfgParser::getPalette` on the global array `palette[20]`:
the result is `palette[0 .. paletteSz)`. `sort` is `std::sort` with
`Point::operator<`. -/
def getPalette (stof : Str → Option ℚ) (sort : List Point → List Point) (m : Map) :
    Option (List Point) :=
  match paletteLoop stof m [] with
  | none => none
  | some pts =>
    if pts.length < 20 then some (sort (pts ++ [closingPoint pts])) else none

/-- What the C++ standard promises of `std::sort` with `Point::operator<`: the
range is rearranged, and no later element is smaller than an earlier one. The
relative order of elements with equal `pos` is left open. -/
def StdSort (sort : List Point → List Point) : Prop :=
  ∀ l, (sort l).Perm l ∧ (sort l).Sorted (fun p q => p.pos ≤ q.pos)

/-- The gradient points held in a map, as `getPalette` meets them: the parsed
values of the entries whose key contains `gradient_point`, in key order. -/
def gradientPoints (stof : Str → Option ℚ) (m : Map) : List Point :=
  (m.filter (fun e => isGradientKey e.1)).filterMap (fun e => parse4f stof e.2)

/-- A sorting function within the promise of `std::sort` that lets the later
of two elements with equal `pos` come first. -/
def sortLaterFirst (l : List Point) : List Point :=
  l.reverse.insertionSort (fun p q => p.pos ≤ q.pos)

/-- The number written by a text of decimal digits. -/
def natValue (s : Str) : Nat :=
  s.foldl (fun n c => 10 * n + (c.toNat - 48)) 0

/-- A conversion that agrees with `std::stof` on unsigned decimal integers and
rejects every other text. -/
def stofDigits (s : Str) : Option ℚ :=
  if s ≠ [] ∧ s.all Char.isDigit then some (natValue s : ℚ) else none

/-- The closing point that `getPalette` appends when `first` is the first
input point: position 1 and the colour of `first` divided by 255. -/
def closingOf (first : Point) : Point :=
  ⟨1, first.r / 255, first.g / 255, first.b / 255⟩

/-- A map with sixteen gradient points: `gradient_point_a` is red at position
0, `gradient_point_b` to `gradient_point_p` are blue at position 100. -/
def mapTie : Map :=
  ("gradient_point_a".toList, "0,255,0,0".toList) ::
    "bcdefghijklmnop".toList.map
      (fun c => ("gradient_point_".toList ++ [c], "100,0,0,255".toList))

/-- A configuration with two gradient points, none at position 100. -/
def cfgTwo : Str :=
  "gradient_point_1 = 0,255,0,0\ngradient_point_2 = 50,0,0,255\nsmooth = true".toList

/-! ## Definitions: view state and navigation (`src/main.cpp`) -/

/-- The globals of `main.cpp` that the view functions read and write, with
the two function-local statics `x`, `y` of `cursor_position_callback`
(`cursorX`, `cursorY`) and the window's close flag. -/
structure View where
  windowWidth : Int
  windowHeight : Int
  minX : ℚ
  minY : ℚ
  maxX : ℚ
  maxY : ℚ
  maxIterations : Int
  iterationStep : Int
  zoomXPos : ℚ
  zoomYPos : ℚ
  shouldZoomIn : Bool
  zoomSpeed : ℚ
  cursorX : ℚ
  cursorY : ℚ
  shouldClose : Bool
deriving DecidableEq, Repr

/-- The global `minXStart = -3.5`, never written. -/
def minXStart : ℚ := -3.5

/-- The global `maxXStart = 2.5`, never written. -/
def maxXStart : ℚ := 2.5

/-- The function `areaSanityCheck`, its `float` arithmetic read as exact. -/
def areaSanityCheck (s : View) : View :=
  { s with minY := s.maxY - (s.maxX - s.minX) * s.windowHeight / s.windowWidth }

/-- The function `defaultView`, its `float` arithmetic read as exact. -/
def defaultView (s : View) : View :=
  let maxY := (maxXStart - minXStart) / 2 * s.windowHeight / s.windowWidth
  areaSanityCheck { s with minX := minXStart, maxX := maxXStart, maxY := maxY, minY := -maxY }

/-- The function `resizeMandel`, without the resizing of the render target,
its `float` arithmetic read as exact. -/
def resizeMandel (s : View) (width height : Int) : View :=
  let scaleX : ℚ := ((width - s.windowWidth : Int) : ℚ) / s.windowWidth
  let scaleY : ℚ := ((height - s.windowHeight : Int) : ℚ) / s.windowHeight
  let diffX := s.maxX - s.minX
  let diffY := s.maxY - s.minY
  { s with
    minX := s.minX - scaleX * diffX / 2
    maxX := s.maxX + scaleX * diffX / 2
    minY := s.minY - scaleY * diffY / 2
    maxY := s.maxY + scaleY * diffY / 2
    windowWidth := width
    windowHeight := height }

/-- Value of a 32-bit `int` computation whose exact result is `x`. -/
def wrapInt (x : Int) : Int :=
  (x + 2147483648) % 4294967296 - 2147483648

/-- The GLFW constant `GLFW_PRESS`. -/
def GLFW_PRESS : Int := 1

/-- The GLFW constant `GLFW_KEY_ESCAPE`. -/
def GLFW_KEY_ESCAPE : Int := 256

/-- The GLFW constant `GLFW_KEY_UP`. -/
def GLFW_KEY_UP : Int := 265

/-- The GLFW constant `GLFW_KEY_DOWN`. -/
def GLFW_KEY_DOWN : Int := 264

/-- The GLFW constant `GLFW_KEY_B`. -/
def GLFW_KEY_B : Int := 66

/-- The function `key_callback`. -/
def key_callback (s : View) (key action : Int) : View :=
  if action ≠ GLFW_PRESS then s
  else if key = GLFW_KEY_ESCAPE then { s with shouldClose := true }
  else if key = GLFW_KEY_UP then
    { s with maxIterations := min (wrapInt (s.maxIterations + s.iterationStep)) 4096 }
  else if key = GLFW_KEY_DOWN then
    { s with maxIterations := max 4 (wrapInt (s.maxIterations - s.iterationStep)) }
  else if key = GLFW_KEY_B then
    let s1 := { s with shouldZoomIn := !s.shouldZoomIn }
    if s1.shouldZoomIn then defaultView s1 else s1
  else s

/-- A run of key events `(key, action)` handled in turn by `key_callback`. -/
def keyEvents (s : View) (evs : List (Int × Int)) : View :=
  evs.foldl (fun t e => key_callback t e.1 e.2) s

/-- The function `zoom`, its `float` arithmetic read as exact: the source
rounds the result of every operation to binary32, the model does not. -/
def zoom (s : View) (xPos yPos amount : ℚ) : View :=
  let xDiff := s.maxX - s.minX
  let yDiff := s.maxY - s.minY
  { s with
    minX := s.minX + amount * xPos / s.windowWidth * xDiff
    maxX := s.maxX - amount * (1 - xPos / s.windowWidth) * xDiff
    minY := s.minY + amount * (1 - yPos / s.windowHeight) * yDiff
    maxY := s.maxY - amount * yPos / s.windowHeight * yDiff }

/-- The fractal-plane abscissa shown at screen column `xPos`. -/
def anchorX (s : View) (xPos : ℚ) : ℚ :=
  s.minX + xPos / s.windowWidth * (s.maxX - s.minX)

/-- The fractal-plane ordinate shown at screen row `yPos` (rows count from the
top). -/
def anchorY (s : View) (yPos : ℚ) : ℚ :=
  s.maxY - yPos / s.windowHeight * (s.maxY - s.minY)

/-- The globals as `main.cpp` initialises them, with an 800 x 600 window,
`max_iterations = 256`, `iteration_step = 16` and `zoom_speed = 1` loaded from
the configuration and the zoom target of the source. -/
def view0 : View :=
  { windowWidth := 800, windowHeight := 600
    minX := -2.5, minY := -2.0, maxX := 1.5, maxY := 2.0
    maxIterations := 256, iterationStep := 16
    zoomXPos := -0.72993051140825282, zoomYPos := -0.24047174011417854
    shouldZoomIn := false, zoomSpeed := 1
    cursorX := -1, cursorY := -1, shouldClose := false }

/-- The view on startup, after `main` has called `defaultView`:
[-3.5, 2.5] x [-2.25, 2.25] in the 800 x 600 window. -/
def viewStart : View :=
  defaultView view0

/-- The view on startup when the configuration gives `max_iterations = 0` and
`iteration_step = 1`. -/
def viewLow : View :=
  { viewStart with maxIterations := 0, iterationStep := 1 }

theorem wrapInt_of_range (x : Int) (h1 : -2147483648 ≤ x) (h2 : x < 2147483648) :
    wrapInt x = x := by
  unfold wrapInt
  omega

theorem key_callback_iterationStep (s : View) (key action : Int) :
    (key_callback s key action).iterationStep = s.iterationStep := by
  unfold key_callback
  dsimp only
  split_ifs <;> simp [defaultView, areaSanityCheck]

theorem key_callback_bounds (s : View) (key action : Int)
    (h1 : 4 ≤ s.maxIterations) (h2 : s.maxIterations ≤ 4096)
    (h3 : 0 ≤ s.iterationStep) (h4 : s.iterationStep ≤ 2147479551) :
    4 ≤ (key_callback s key action).maxIterations ∧
      (key_callback s key action).maxIterations ≤ 4096 := by
  unfold key_callback
  dsimp only
  split_ifs
  · exact ⟨h1, h2⟩
  · exact ⟨h1, h2⟩
  · rw [wrapInt_of_range _ (by omega) (by omega)]
    simp only [le_min_iff, min_le_iff]
    omega
  · rw [wrapInt_of_range _ (by omega) (by omega)]
    simp only [le_max_iff, max_le_iff]
    omega
  · simpa [defaultView, areaSanityCheck] using And.intro h1 h2
  · exact ⟨h1, h2⟩
  · exact ⟨h1, h2⟩

/-- C3: `zoom` keeps the fractal coordinate of its anchor: both
`minX + xPos/windowWidth*(maxX-minX)` and `maxY - yPos/windowHeight*(maxY-minY)`
have the same value before and after the call. -/
theorem zoom_anchor_fixed (s : View) (xPos yPos amount : ℚ)
    (hW : 0 < s.windowWidth) (hH : 0 < s.windowHeight) :
    anchorX (zoom s xPos yPos amount) xPos = anchorX s xPos ∧
      anchorY (zoom s xPos yPos amount) yPos = anchorY s yPos := by
  have _ := hW
  have _ := hH
  simp only [anchorX, anchorY, zoom]
  constructor <;> ring

theorem zoom_anchor_fixed_witness :
    anchorX (zoom viewStart 200 150 (1 / 2)) 200 = anchorX viewStart 200 ∧
      anchorY (zoom viewStart 200 150 (1 / 2)) 150 = anchorY viewStart 150 :=
  zoom_anchor_fixed viewStart 200 150 (1 / 2) (by decide) (by decide)

/-- C8, as stated, fails: in the startup view, [-3.5, 2.5] wide in an
800 x 600 window, zooming by 0.5 at the window centre and then by -0.5 at the
same anchor leaves `minX` at -2.75 instead of -3.5. -/
theorem zoom_inverse_counterexample :
    0 < viewStart.windowWidth ∧ 0 < viewStart.windowHeight ∧ viewStart.minX = -3.5 ∧
      (zoom (zoom viewStart 400 300 0.5) 400 300 (-0.5)).minX = -2.75 := by
  refine ⟨by decide, by decide, rfl, ?_⟩
  norm_num [zoom, viewStart, defaultView, areaSanityCheck, view0, minXStart, maxXStart]

/-- C8, amended: zooming by `a` and then by `-a` at the same anchor moves the
four bounds exactly as one zoom by `a * a` at that anchor does (so the
rectangle keeps the factor `1 - a * a` of its extent instead of returning to
its bounds). -/
theorem zoom_then_inverse (s : View) (xPos yPos a : ℚ)
    (hW : 0 < s.windowWidth) (hH : 0 < s.windowHeight) :
    zoom (zoom s xPos yPos a) xPos yPos (-a) = zoom s xPos yPos (a * a) := by
  have _ := hW
  have _ := hH
  simp only [zoom, View.mk.injEq, true_and, and_true]
  refine ⟨?_, ?_, ?_, ?_⟩ <;> ring

theorem zoom_then_inverse_witness :
    zoom (zoom viewStart 200 150 (1 / 2)) 200 150 (-(1 / 2)) =
      zoom viewStart 200 150 (1 / 2 * (1 / 2)) :=
  zoom_then_inverse viewStart 200 150 (1 / 2) (by decide) (by decide)

/-- C10: when the rectangle is proportional to the window before
`resizeMandel(width, height)`, it is proportional to the new window after it,
and its centre has not moved. -/
theorem resizeMandel_proportional (s : View) (width height : Int)
    (hW : 0 < s.windowWidth) (hH : 0 < s.windowHeight)
    (hw : 0 < width) (hh : 0 < height)
    (hprop : s.maxY - s.minY = (s.maxX - s.minX) * s.windowHeight / s.windowWidth) :
    (resizeMandel s width height).maxY - (resizeMandel s width height).minY =
        ((resizeMandel s width height).maxX - (resizeMandel s width height).minX) *
          height / width ∧
      ((resizeMandel s width height).minX + (resizeMandel s width height).maxX) / 2 =
        (s.minX + s.maxX) / 2 ∧
      ((resizeMandel s width height).minY + (resizeMandel s width height).maxY) / 2 =
        (s.minY + s.maxY) / 2 := by
  have hW0 : (s.windowWidth : ℚ) ≠ 0 := by exact_mod_cast hW.ne.symm
  have hH0 : (s.windowHeight : ℚ) ≠ 0 := by exact_mod_cast hH.ne.symm
  have hw0 : (width : ℚ) ≠ 0 := by exact_mod_cast hw.ne.symm
  have hh0 : (height : ℚ) ≠ 0 := by exact_mod_cast hh.ne.symm
  simp only [resizeMandel]
  push_cast
  refine ⟨?_, by ring, by ring⟩
  have e1 : s.maxY + ((height : ℚ) - s.windowHeight) / s.windowHeight * (s.maxY - s.minY) / 2 -
      (s.minY - ((height : ℚ) - s.windowHeight) / s.windowHeight * (s.maxY - s.minY) / 2) =
      (s.maxY - s.minY) * height / s.windowHeight := by
    field_simp
    ring
  have e2 : s.maxX + ((width : ℚ) - s.windowWidth) / s.windowWidth * (s.maxX - s.minX) / 2 -
      (s.minX - ((width : ℚ) - s.windowWidth) / s.windowWidth * (s.maxX - s.minX) / 2) =
      (s.maxX - s.minX) * width / s.windowWidth := by
    field_simp
    ring
  rw [e1, e2, hprop]
  field_simp
  ring

theorem resizeMandel_proportional_witness :
    (resizeMandel viewStart 1024 768).maxY - (resizeMandel viewStart 1024 768).minY =
        ((resizeMandel viewStart 1024 768).maxX - (resizeMandel viewStart 1024 768).minX) *
          (768 : Int) / (1024 : Int) ∧
      ((resizeMandel viewStart 1024 768).minX + (resizeMandel viewStart 1024 768).maxX) / 2 =
        (viewStart.minX + viewStart.maxX) / 2 ∧
      ((resizeMandel viewStart 1024 768).minY + (resizeMandel viewStart 1024 768).maxY) / 2 =
        (viewStart.minY + viewStart.maxY) / 2 :=
  resizeMandel_proportional viewStart 1024 768 (by decide) (by decide) (by decide) (by decide)
    (by norm_num [viewStart, defaultView, areaSanityCheck, view0, minXStart, maxXStart])

/-- C6, as stated, fails: with `max_iterations = 0` and `iteration_step = 1`
loaded from the configuration, one press of UP leaves `maxIterations = 1`,
below 4. -/
theorem iteration_clamp_counterexample :
    (key_callback viewLow GLFW_KEY_UP GLFW_PRESS).maxIterations = 1 ∧
      ¬ (4 ≤ (key_callback viewLow GLFW_KEY_UP GLFW_PRESS).maxIterations ∧
        (key_callback viewLow GLFW_KEY_UP GLFW_PRESS).maxIterations ≤ 4096) := by
  decide

/-- C6, amended: when `maxIterations` starts in [4, 4096] and
`0 ≤ iterationStep ≤ 2147479551` (so that `maxIterations + iterationStep`
stays an `int`), then after any run of key events, UP and DOWN presses
included, `4 ≤ maxIterations ≤ 4096`. -/
theorem iteration_budget_bounded (s : View) (evs : List (Int × Int))
    (h1 : 4 ≤ s.maxIterations) (h2 : s.maxIterations ≤ 4096)
    (h3 : 0 ≤ s.iterationStep) (h4 : s.iterationStep ≤ 2147479551) :
    4 ≤ (keyEvents s evs).maxIterations ∧ (keyEvents s evs).maxIterations ≤ 4096 := by
  unfold keyEvents
  induction evs generalizing s with
  | nil => exact ⟨h1, h2⟩
  | cons e rest ih =>
    have hb := key_callback_bounds s e.1 e.2 h1 h2 h3 h4
    have hs := key_callback_iterationStep s e.1 e.2
    simp only [List.foldl_cons]
    exact ih _ hb.1 hb.2 (by rw [hs]; exact h3) (by rw [hs]; exact h4)

theorem iteration_budget_bounded_witness :
    4 ≤ (keyEvents viewStart
        [(GLFW_KEY_UP, GLFW_PRESS), (GLFW_KEY_DOWN, GLFW_PRESS)]).maxIterations ∧
      (keyEvents viewStart
        [(GLFW_KEY_UP, GLFW_PRESS), (GLFW_KEY_DOWN, GLFW_PRESS)]).maxIterations ≤ 4096 :=
  iteration_budget_bounded viewStart [(GLFW_KEY_UP, GLFW_PRESS), (GLFW_KEY_DOWN, GLFW_PRESS)]
    (by decide) (by decide) (by decide) (by decide)

theorem finish_nonempty (cur t : Str) (h : t ∈ finish cur) : t ≠ [] := by
  unfold finish at h
  split_ifs at h with hc
  · simp at h
  · simp only [List.mem_singleton] at h
    rw [h]
    exact hc

theorem tokensAux_nonempty (s : Str) : ∀ (cur t : Str), t ∈ tokensAux cur s → t ≠ [] := by
  induction s with
  | nil =>
    intro cur t h
    exact finish_nonempty cur t h
  | cons ch rest ih =>
    intro cur t h
    unfold tokensAux at h
    split_ifs at h with hs
    · rcases List.mem_append.mp h with h1 | h1
      · exact finish_nonempty cur t h1
      · exact ih _ _ h1
    · exact ih _ _ h

theorem tokensAux_chars (s : Str) :
    ∀ (cur t : Str), t ∈ tokensAux cur s → ∀ c ∈ t, c ∈ cur ∨ c ∈ s := by
  induction s with
  | nil =>
    intro cur t h c hc
    unfold tokensAux finish at h
    split_ifs at h
    · simp at h
    · simp only [List.mem_singleton] at h
      rw [h] at hc
      exact Or.inl hc
  | cons ch rest ih =>
    intro cur t h c hc
    unfold tokensAux at h
    split_ifs at h with hs
    · rcases List.mem_append.mp h with h1 | h1
      · unfold finish at h1
        split_ifs at h1
        · simp at h1
        · simp only [List.mem_singleton] at h1
          rw [h1] at hc
          exact Or.inl hc
      · rcases ih _ _ h1 c hc with h2 | h2
        · simp at h2
        · exact Or.inr (List.mem_cons_of_mem _ h2)
    · rcases ih _ _ h c hc with h2 | h2
      · rcases List.mem_append.mp h2 with h3 | h3
        · exact Or.inl h3
        · simp only [List.mem_singleton] at h3
          rw [h3]
          exact Or.inr (List.mem_cons_self _ _)
      · exact Or.inr (List.mem_cons_of_mem _ h2)

theorem tokensAux_space (a b : Str) (sp : Char) (hsp : isSpace sp = true) :
    ∀ cur : Str, tokensAux cur (a ++ sp :: b) = tokensAux cur a ++ tokensAux [] b := by
  induction a with
  | nil =>
    intro cur
    simp [tokensAux, hsp]
  | cons ch rest ih =>
    intro cur
    rw [List.cons_append, tokensAux, tokensAux]
    split_ifs
    · rw [ih, List.append_assoc]
    · rw [ih]

theorem tokensAux_word (w r : Str) (hw : ∀ c ∈ w, isSpace c = false) :
    ∀ cur : Str, tokensAux cur (w ++ r) = tokensAux (cur ++ w) r := by
  induction w with
  | nil =>
    intro cur
    simp
  | cons ch rest ih =>
    intro cur
    have h1 : isSpace ch = false := hw ch (List.mem_cons_self _ _)
    have h2 : ∀ c ∈ rest, isSpace c = false := fun c hc => hw c (List.mem_cons_of_mem _ hc)
    rw [List.cons_append, tokensAux, if_neg (by simp [h1]), ih h2]
    simp

theorem tokensAux_head (r : Str) :
    ∀ cur : Str, cur ≠ [] → ∃ t ts, tokensAux cur r = (cur ++ t) :: ts := by
  induction r with
  | nil =>
    intro cur hc
    exact ⟨[], [], by simp [tokensAux, finish, hc]⟩
  | cons ch rest ih =>
    intro cur hc
    unfold tokensAux
    split_ifs
    · exact ⟨[], tokensAux [] rest, by simp [finish, hc]⟩
    · obtain ⟨t, ts, h⟩ := ih (cur ++ [ch]) (by simp)
      exact ⟨ch :: t, ts, by rw [h]; simp⟩

theorem rdrop_split (l : Str) :
    ∃ w, l = l.rdropWhile (fun c => !isSpace c) ++ w ∧ (∀ c ∈ w, isSpace c = false) ∧
      (l.rdropWhile (fun c => !isSpace c) = [] ∨
        ∃ q sp, l.rdropWhile (fun c => !isSpace c) = q ++ [sp] ∧ isSpace sp = true) := by
  induction l using List.reverseRecOn with
  | nil => exact ⟨[], by simp, by simp, Or.inl (by simp)⟩
  | append_singleton l x ih =>
    by_cases hx : isSpace x = true
    · rw [List.rdropWhile_concat_neg _ _ _ (by simp [hx])]
      exact ⟨[], by simp, by simp, Or.inr ⟨l, x, rfl, hx⟩⟩
    · rw [List.rdropWhile_concat_pos _ _ _ (by simpa using hx)]
      obtain ⟨w, h1, h2, h3⟩ := ih
      refine ⟨w ++ [x], ?_, ?_, h3⟩
      · rw [← List.append_assoc, ← h1]
      · intro c hc
        rcases List.mem_append.mp hc with h | h
        · exact h2 c h
        · simp only [List.mem_singleton] at h
          rw [h]
          simpa using hx

theorem getlinesAux_line (l rest : Str) (hl : '\n' ∉ l) :
    ∀ cur : Str, getlinesAux '\n' cur (l ++ '\n' :: rest) =
      (cur ++ l) :: getlinesAux '\n' [] rest := by
  induction l with
  | nil =>
    intro cur
    simp [getlinesAux]
  | cons ch l ih =>
    intro cur
    have h1 : ch ≠ '\n' := fun h => hl (by rw [h]; exact List.mem_cons_self _ _)
    have h2 : '\n' ∉ l := fun h => hl (List.mem_cons_of_mem _ h)
    rw [List.cons_append, getlinesAux, if_neg h1, ih h2]
    simp

theorem getlines_joinLines (ls : List Str) (h : ∀ l ∈ ls, '\n' ∉ l) :
    getlines (joinLines ls) = ls := by
  induction ls with
  | nil => simp [getlines, joinLines, getlinesAux, finish]
  | cons l ls ih =>
    have h1 : '\n' ∉ l := h l (List.mem_cons_self _ _)
    have h2 : ∀ x ∈ ls, '\n' ∉ x := fun x hx => h x (List.mem_cons_of_mem _ hx)
    have e := ih h2
    unfold getlines at e ⊢
    rw [joinLines, getlinesAux_line l _ h1, e]
    simp

theorem parseFile_replace_line (m : Map) (before after : List Str) (s s1 : Str)
    (hb : ∀ l ∈ before, '\n' ∉ l) (ha : ∀ l ∈ after, '\n' ∉ l)
    (hs : '\n' ∉ s) (hs1 : '\n' ∉ s1) (h : ∀ m1, parseLine m1 s = parseLine m1 s1) :
    parseFile m (joinLines (before ++ s :: after)) =
      parseFile m (joinLines (before ++ s1 :: after)) := by
  have g1 : ∀ l ∈ before ++ s :: after, '\n' ∉ l := by
    intro l hl
    rcases List.mem_append.mp hl with h1 | h1
    · exact hb l h1
    · rcases List.mem_cons.mp h1 with h2 | h2
      · rw [h2]
        exact hs
      · exact ha l h2
  have g2 : ∀ l ∈ before ++ s1 :: after, '\n' ∉ l := by
    intro l hl
    rcases List.mem_append.mp hl with h1 | h1
    · exact hb l h1
    · rcases List.mem_cons.mp h1 with h2 | h2
      · rw [h2]
        exact hs1
      · exact ha l h2
  unfold parseFile
  rw [getlines_joinLines _ g1, getlines_joinLines _ g2]
  simp only [List.foldl_append, List.foldl_cons, h]

theorem lineLoop_takeWhile (ts : List Str) :
    ∀ (a b : Str) (m : Map), lineLoop (ts.takeWhile noHash) a b m = lineLoop ts a b m := by
  induction ts with
  | nil =>
    intro a b m
    rfl
  | cons c rest ih =>
    intro a b m
    by_cases hc : '#' ∈ c
    · have e : noHash c = false := by simp [noHash, hc]
      rw [List.takeWhile_cons_of_neg (by simp [e])]
      simp [lineLoop, hc]
    · have e : noHash c = true := by simp [noHash, hc]
      rw [List.takeWhile_cons_of_pos e]
      simp only [lineLoop, if_neg hc]
      exact ih _ _ _

theorem find_assign (m : Map) (k v k1 : Str) :
    find (assign m k v) k1 = if k1 = k then some v else find m k1 := by
  induction m with
  | nil => simp [assign, find]
  | cons e rest ih =>
    obtain ⟨k2, v2⟩ := e
    unfold assign
    by_cases h1 : k = k2
    · rw [if_pos h1]
      subst h1
      by_cases h : k1 = k <;> simp [find, h]
    · rw [if_neg h1]
      by_cases h3 : strLt k k2 = true
      · rw [if_pos h3]
        by_cases h : k1 = k <;> simp [find, h]
      · rw [if_neg h3]
        by_cases h7 : k1 = k2
        · have h8 : ¬ k1 = k := fun h => h1 (h.symm.trans h7)
          simp only [find, if_pos h7, if_neg h8]
        · simp only [find, if_neg h7, ih]

theorem parseLine_wellformed (m : Map) (s k v : Str) (ht : tokens s = [k, ['='], v])
    (hk : '#' ∉ k) (hv : '#' ∉ v) :
    parseLine m s = assign (if k = ['='] then assign m [] ['='] else m) k v := by
  have h0 : '#' ∉ ['='] := by decide
  unfold parseLine
  rw [ht]
  simp [lineLoop, hk, hv]

/-- C1: in a file whose lines all tokenize to `key`, `=`, `value` without any
'#', after `parseFile` the map holds at each key that occurs the value of the
last line with that key: if line `s` reads `k = v` and no later line reads
`k = ...`, the map holds `v` at `k`. -/
theorem parseFile_last_wins (m : Map) (content : Str) (before after : List Str)
    (s k v : Str)
    (hlines : getlines content = before ++ s :: after)
    (hform : ∀ l ∈ getlines content,
      ∃ k1 v1, tokens l = [k1, ['='], v1] ∧ '#' ∉ k1 ∧ '#' ∉ v1)
    (hs : tokens s = [k, ['='], v])
    (hlast : ∀ l ∈ after, ∀ v1, tokens l ≠ [k, ['='], v1]) :
    find (parseFile m content) k = some v := by
  have hk0 : k ≠ [] := by
    apply tokensAux_nonempty s [] k
    show k ∈ tokens s
    rw [hs]
    exact List.mem_cons_self _ _
  have hs_form := hform s (by rw [hlines]; simp)
  obtain ⟨k1, v1, e1, hk1, hv1⟩ := hs_form
  rw [hs] at e1
  have ek : k = k1 := by
    have := List.cons.inj e1
    exact this.1
  have ev : v = v1 := by
    have h1 := (List.cons.inj e1).2
    have h2 := (List.cons.inj h1).2
    exact (List.cons.inj h2).1
  subst ek
  subst ev
  have hafter : ∀ (ls : List Str) (m1 : Map),
      (∀ l ∈ ls, ∃ k2 v2, tokens l = [k2, ['='], v2] ∧ '#' ∉ k2 ∧ '#' ∉ v2) →
      (∀ l ∈ ls, ∀ v2, tokens l ≠ [k, ['='], v2]) →
      find (ls.foldl parseLine m1) k = find m1 k := by
    intro ls
    induction ls with
    | nil =>
      intro m1 _ _
      rfl
    | cons l ls ih =>
      intro m1 hf hl
      obtain ⟨k2, v2, e2, hk2, hv2⟩ := hf l (List.mem_cons_self _ _)
      have hne : k ≠ k2 := by
        intro hkk
        apply hl l (List.mem_cons_self _ _) v2
        rw [e2, hkk]
      rw [List.foldl_cons, ih _ (fun x hx => hf x (List.mem_cons_of_mem _ hx))
        (fun x hx => hl x (List.mem_cons_of_mem _ hx)), parseLine_wellformed m1 l k2 v2 e2 hk2 hv2,
        find_assign, if_neg hne]
      split_ifs
      · rw [find_assign, if_neg hk0]
      · rfl
  unfold parseFile
  rw [hlines, List.foldl_append, List.foldl_cons]
  rw [hafter after _ (fun l hl => hform l (by rw [hlines]; simp [hl])) hlast,
    parseLine_wellformed _ s k v hs hk1 hv1, find_assign, if_pos rfl]

theorem parseFile_last_wins_witness :
    find (parseFile [] cfgDup) "b".toList = some "3".toList := by
  have hl : getlines cfgDup = ["b = 1".toList] ++ "b = 3".toList :: ["a = 2".toList] := by decide
  refine parseFile_last_wins [] cfgDup ["b = 1".toList] ["a = 2".toList] "b = 3".toList
    "b".toList "3".toList hl ?_ (by decide) ?_
  · intro l hmem
    rw [hl] at hmem
    simp only [List.singleton_append, List.mem_cons, List.mem_singleton] at hmem
    rcases hmem with h | h | h | h
    · exact ⟨"b".toList, "1".toList, by rw [h]; decide, by decide, by decide⟩
    · exact ⟨"b".toList, "3".toList, by rw [h]; decide, by decide, by decide⟩
    · exact ⟨"a".toList, "2".toList, by rw [h]; decide, by decide, by decide⟩
    · simp at h
  · intro l hmem v1 ht
    simp only [List.mem_singleton] at hmem
    rw [hmem] at ht
    have e : tokens "a = 2".toList = ["a".toList, ['='], "2".toList] := by decide
    rw [e] at ht
    have h1 := (List.cons.inj ht).1
    exact absurd h1 (by decide)

theorem parseLine_tokens_cut (m : Map) (s s1 : Str)
    (htok : tokens s1 = (tokens s).takeWhile noHash) : parseLine m s = parseLine m s1 := by
  unfold parseLine
  rw [htok, lineLoop_takeWhile]

theorem noHash_iff (t : Str) : noHash t = true ↔ '#' ∉ t := by
  simp [noHash]

theorem lineLoop_find_untouched (ys : List Str) :
    ∀ (a b : Str) (m : Map) (k : Str), k ≠ a → k ≠ b → k ∉ ys →
      find (lineLoop ys a b m) k = find m k := by
  induction ys with
  | nil =>
    intro a b m k _ _ _
    rfl
  | cons c rest ih =>
    intro a b m k hka hkb hys
    have hkc : k ≠ c := fun h => hys (by rw [h]; exact List.mem_cons_self _ _)
    have hrest : k ∉ rest := fun h => hys (List.mem_cons_of_mem _ h)
    unfold lineLoop
    split_ifs with hc hb
    · rfl
    · rw [ih b c _ k hkb hkc hrest, find_assign, if_neg hka]
    · exact ih b c _ k hkb hkc hrest

theorem lineLoop_values (ys : List Str) :
    ∀ (a b : Str) (m : Map) (k v : Str), find (lineLoop ys a b m) k = some v →
      find m k = some v ∨ v ∈ ys := by
  induction ys with
  | nil =>
    intro a b m k v h
    exact Or.inl h
  | cons c rest ih =>
    intro a b m k v h
    unfold lineLoop at h
    split_ifs at h with hc hb
    · exact Or.inl h
    · rcases ih b c _ k v h with h1 | h1
      · rw [find_assign] at h1
        split_ifs at h1 with hk
        · right
          rw [← Option.some.inj h1]
          exact List.mem_cons_self _ _
        · exact Or.inl h1
      · exact Or.inr (List.mem_cons_of_mem _ h1)
    · rcases ih b c _ k v h with h1 | h1
      · exact Or.inl h1
      · exact Or.inr (List.mem_cons_of_mem _ h1)

theorem lineLoop_append_noHash (xs : List Str) (hxs : ∀ t ∈ xs, '#' ∉ t) :
    ∀ (a b : Str) (m : Map), ∃ a1 b1 m1,
      ∀ rest, lineLoop (xs ++ rest) a b m = lineLoop rest a1 b1 m1 := by
  induction xs with
  | nil =>
    intro a b m
    exact ⟨a, b, m, fun _ => rfl⟩
  | cons c xs ih =>
    intro a b m
    have hc : '#' ∉ c := hxs c (List.mem_cons_self _ _)
    obtain ⟨a1, b1, m1, h⟩ := ih (fun t ht => hxs t (List.mem_cons_of_mem _ ht)) b c
      (if b = ['='] then assign m a c else m)
    refine ⟨a1, b1, m1, fun rest => ?_⟩
    rw [List.cons_append, lineLoop, if_neg hc]
    exact h rest

theorem lineLoop_triple (k v : Str) (ys : List Str) (a b : Str) (m : Map)
    (hk : '#' ∉ k) (hv : '#' ∉ v) (hlater : k ∉ ['='] :: v :: ys) :
    find (lineLoop (k :: ['='] :: v :: ys) a b m) k = some v := by
  have h0 : '#' ∉ ['='] := by decide
  have hk1 : k ≠ ['='] := fun h => hlater (by rw [h]; exact List.mem_cons_self _ _)
  have hk2 : k ≠ v := fun h =>
    hlater (List.mem_cons_of_mem _ (by rw [h]; exact List.mem_cons_self _ _))
  have hk3 : k ∉ ys := fun h => hlater (List.mem_cons_of_mem _ (List.mem_cons_of_mem _ h))
  rw [lineLoop, if_neg hk, lineLoop, if_neg h0, lineLoop, if_neg hv, if_pos rfl,
    lineLoop_find_untouched ys _ _ _ k hk1 hk2 hk3, find_assign, if_pos rfl]

theorem parseFile_last_line (m : Map) (before : List Str) (s : Str)
    (hb : ∀ l ∈ before, '\n' ∉ l) (hs : '\n' ∉ s) :
    parseFile m (joinLines (before ++ [s])) =
      lineLoop ((tokens s).takeWhile noHash) [] [] (parseFile m (joinLines before)) := by
  have g : ∀ l ∈ before ++ [s], '\n' ∉ l := by
    intro l hl
    rcases List.mem_append.mp hl with h1 | h1
    · exact hb l h1
    · rw [List.mem_singleton.mp h1]
      exact hs
  unfold parseFile
  rw [getlines_joinLines _ g, getlines_joinLines _ hb, List.foldl_append, lineLoop_takeWhile]
  rfl

/-- C4: the first token of a line that contains '#' and all tokens after it
are excluded from parsing, and the tokens before it are parsed as usual.
In any file, a line `s` can be replaced by a line `s1` holding only the tokens
of `s` before that token, and `parseFile` produces the same map. With `s` the
last line read: a triple `k = v` among the tokens before that token is
assigned, the map holding `v` at `k` when `k` does not occur again after it;
a key that is not among the tokens before that token keeps the entry it had;
and every value in the map was there before or is one of those tokens. -/
theorem comment_tokens_excluded (m : Map) (before after : List Str) (s s1 : Str)
    (hb : ∀ l ∈ before, '\n' ∉ l) (ha : ∀ l ∈ after, '\n' ∉ l)
    (hs : '\n' ∉ s) (hs1 : '\n' ∉ s1)
    (htok : tokens s1 = (tokens s).takeWhile noHash) :
    parseFile m (joinLines (before ++ s :: after)) =
        parseFile m (joinLines (before ++ s1 :: after)) ∧
      (∀ (xs ys : List Str) (k v : Str),
        (tokens s).takeWhile noHash = xs ++ [k, ['='], v] ++ ys →
        k ∉ ['='] :: v :: ys →
        find (parseFile m (joinLines (before ++ [s]))) k = some v) ∧
      (∀ k : Str, k ≠ [] → k ∉ (tokens s).takeWhile noHash →
        find (parseFile m (joinLines (before ++ [s]))) k =
          find (parseFile m (joinLines before)) k) ∧
      (∀ k v : Str, find (parseFile m (joinLines (before ++ [s]))) k = some v →
        find (parseFile m (joinLines before)) k = some v ∨
          v ∈ (tokens s).takeWhile noHash) := by
  have hlast := parseFile_last_line m before s hb hs
  refine ⟨parseFile_replace_line m before after s s1 hb ha hs hs1
    (fun m1 => parseLine_tokens_cut m1 s s1 htok), ?_, ?_, ?_⟩
  · intro xs ys k v hdec hlater
    have hall : ∀ t ∈ xs ++ [k, ['='], v] ++ ys, '#' ∉ t := by
      intro t ht
      rw [← hdec] at ht
      exact (noHash_iff t).mp (List.mem_takeWhile_imp ht)
    have hxs : ∀ t ∈ xs, '#' ∉ t := fun t ht => hall t (by simp [ht])
    have hk : '#' ∉ k := hall k (by simp)
    have hv : '#' ∉ v := hall v (by simp)
    obtain ⟨a1, b1, m1, h⟩ := lineLoop_append_noHash xs hxs [] []
      (parseFile m (joinLines before))
    rw [hlast, hdec, List.append_assoc, h]
    exact lineLoop_triple k v ys a1 b1 m1 hk hv hlater
  · intro k hk hnot
    rw [hlast]
    exact lineLoop_find_untouched _ [] [] _ k hk hk hnot
  · intro k v hfind
    rw [hlast] at hfind
    exact lineLoop_values _ [] [] _ k v hfind

theorem comment_tokens_excluded_witness :
    parseFile [] (joinLines (["k = v".toList] ++ cfgComment :: ["z = 9".toList])) =
        parseFile [] (joinLines (["k = v".toList] ++ "a = 1 b =".toList :: ["z = 9".toList])) ∧
      find (parseFile [] (joinLines (["k = v".toList] ++ [cfgComment]))) "a".toList =
        some "1".toList ∧
      find (parseFile [] (joinLines (["k = v".toList] ++ [cfgComment]))) "c".toList =
        find (parseFile [] (joinLines ["k = v".toList])) "c".toList := by
  obtain ⟨h1, h2, h3, _⟩ := comment_tokens_excluded [] ["k = v".toList] ["z = 9".toList]
    cfgComment "a = 1 b =".toList (by decide) (by decide) (by decide) (by decide) (by decide)
  exact ⟨h1, h2 [] ["b".toList, "=".toList] "a".toList "1".toList (by decide) (by decide),
    h3 "c".toList (by decide) (by decide)⟩

/-- C5, as stated, fails: the line `a = b#c` yields no entry, while the line
cut before its first '#', `a = b`, assigns `b` to `a`. -/
theorem hash_inside_token_counterexample :
    parseFile [] cfgHashInside = [] ∧
      cutAtHash cfgHashInside = "a = b".toList ∧
      parseFile [] (cutAtHash cfgHashInside) = [("a".toList, "b".toList)] := by
  decide

theorem tokens_hash_word (w rest : Str) (hw : ∀ c ∈ w, isSpace c = false) :
    ∃ t ts, tokensAux [] (w ++ '#' :: rest) = t :: ts ∧ noHash t = false := by
  have h1 : isSpace '#' = false := by decide
  rw [tokensAux_word w _ hw, tokensAux, if_neg (by simp [h1])]
  obtain ⟨t, ts, h⟩ := tokensAux_head rest ([] ++ w ++ ['#']) (by simp)
  exact ⟨_, ts, h, by simp [noHash]⟩

theorem tokens_noHash_of_not_mem (q : Str) (hq : '#' ∉ q) :
    ∀ t ∈ tokensAux [] q, noHash t = true := by
  intro t ht
  simp only [noHash, decide_eq_true_eq]
  intro hc
  rcases tokensAux_chars q [] t ht '#' hc with h | h
  · simp at h
  · exact hq h

theorem tokens_cutAtHashToken (s : Str) :
    tokens (cutAtHashToken s) = (tokens s).takeWhile noHash := by
  unfold cutAtHashToken tokens
  split_ifs with h
  · have hsplit := List.takeWhile_append_dropWhile (fun c => c != '#') s
    have hpre : '#' ∉ s.takeWhile (fun c => c != '#') := by
      intro hm
      have := List.mem_takeWhile_imp hm
      simp at this
    obtain ⟨w, hw1, hw2, hw3⟩ := rdrop_split (s.takeWhile (fun c => c != '#'))
    cases hpost : s.dropWhile (fun c => c != '#') with
    | nil =>
      exfalso
      have := List.dropWhile_eq_nil_iff.mp hpost '#' h
      simp at this
    | cons c rest =>
      have hc : c = '#' := by
        have := List.head_dropWhile_not (fun c => c != '#') s (by rw [hpost]; simp)
        simpa [hpost] using this
      subst hc
      obtain ⟨t, ts, ht, hth⟩ := tokens_hash_word w rest hw2
      have hs : s = (s.takeWhile (fun c => c != '#')).rdropWhile (fun c => !isSpace c) ++
          (w ++ '#' :: rest) := by
        rw [← List.append_assoc, ← hw1, ← hpost, hsplit]
      have hpq : '#' ∉ (s.takeWhile (fun c => c != '#')).rdropWhile (fun c => !isSpace c) :=
        fun hm => hpre ((List.rdropWhile_prefix _ _).subset hm)
      rcases hw3 with h0 | ⟨q, sp, hq, hsp⟩
      · rw [h0] at hs ⊢
        rw [List.nil_append] at hs
        rw [hs]
        rw [ht, List.takeWhile_cons_of_neg (by simp [hth])]
        rfl
      · rw [hq] at hs hpq ⊢
        have hqn : '#' ∉ q := fun hm => hpq (List.mem_append_left _ hm)
        have e := tokensAux_space q [] sp hsp []
        rw [hs, List.append_assoc, List.singleton_append,
          tokensAux_space q (w ++ '#' :: rest) sp hsp [], ht,
          List.takeWhile_append_of_pos (tokens_noHash_of_not_mem q hqn),
          List.takeWhile_cons_of_neg (by simp [hth]), e]
        simp [tokensAux, finish]
  · exact (List.takeWhile_eq_self_iff.mpr (tokens_noHash_of_not_mem s h)).symm

theorem cutAtHashToken_no_newline (s : Str) (hs : '\n' ∉ s) : '\n' ∉ cutAtHashToken s := by
  unfold cutAtHashToken
  split_ifs
  · intro hm
    exact hs ((List.takeWhile_prefix _).subset ((List.rdropWhile_prefix _ _).subset hm))
  · exact hs

/-- C5, amended: a '#' on a line begins a comment that takes the whole
whitespace-separated token it stands in and runs to the end of the line: in any
file, `parseFile` produces the same map when a line is cut just before the
first token that contains a '#' (text before the '#' inside that token is
dropped with it). -/
theorem comment_cut_at_token (m : Map) (before after : List Str) (s : Str)
    (hb : ∀ l ∈ before, '\n' ∉ l) (ha : ∀ l ∈ after, '\n' ∉ l) (hs : '\n' ∉ s) :
    parseFile m (joinLines (before ++ s :: after)) =
      parseFile m (joinLines (before ++ cutAtHashToken s :: after)) :=
  parseFile_replace_line m before after s (cutAtHashToken s) hb ha hs
    (cutAtHashToken_no_newline s hs)
    (fun m1 => parseLine_tokens_cut m1 s _ (tokens_cutAtHashToken s))

theorem comment_cut_at_token_witness :
    parseFile [] (joinLines (["k = v".toList] ++ cfgHashInside :: ["z = 9".toList])) =
      parseFile [] (joinLines (["k = v".toList] ++ cutAtHashToken cfgHashInside ::
        ["z = 9".toList])) :=
  comment_cut_at_token [] ["k = v".toList] ["z = 9".toList] cfgHashInside
    (by decide) (by decide) (by decide)

/-! ## Theorems: palette extraction -/

theorem sortLaterFirst_stdSort : StdSort sortLaterFirst := by
  intro l
  haveI : IsTotal Point (fun p q => p.pos ≤ q.pos) := ⟨fun a b => le_total a.pos b.pos⟩
  haveI : IsTrans Point (fun p q => p.pos ≤ q.pos) := ⟨fun _ _ _ h1 h2 => le_trans h1 h2⟩
  exact ⟨(List.perm_insertionSort _ _).trans (List.reverse_perm _),
    List.sorted_insertionSort _ _⟩

theorem paletteLoop_eq (stof : Str → Option ℚ) (m : Map) :
    ∀ acc : List Point,
      (∀ e ∈ m, isGradientKey e.1 = true → ∃ p, parse4f stof e.2 = some p) →
      acc.length + (m.filter (fun e => isGradientKey e.1)).length ≤ 20 →
      paletteLoop stof m acc = some (acc ++ (gradientPoints stof m).map rescale) ∧
        (gradientPoints stof m).length = (m.filter (fun e => isGradientKey e.1)).length := by
  induction m with
  | nil =>
    intro acc _ _
    simp [paletteLoop, gradientPoints]
  | cons e rest ih =>
    intro acc hp hlen
    obtain ⟨k, v⟩ := e
    have hrest : ∀ e ∈ rest, isGradientKey e.1 = true → ∃ p, parse4f stof e.2 = some p :=
      fun e he => hp e (List.mem_cons_of_mem _ he)
    by_cases hk : isGradientKey k = true
    · obtain ⟨p, hpv⟩ := hp (k, v) (List.mem_cons_self _ _) hk
      simp only at hpv
      have hf : ((k, v) :: rest).filter (fun e => isGradientKey e.1) =
          (k, v) :: rest.filter (fun e => isGradientKey e.1) := by
        rw [List.filter_cons_of_pos (by simpa using hk)]
      rw [hf, List.length_cons] at hlen
      have hacc : acc.length < 20 := by omega
      obtain ⟨i1, i2⟩ := ih (acc ++ [rescale p]) hrest (by rw [List.length_append]; simp; omega)
      have hg : gradientPoints stof ((k, v) :: rest) = p :: gradientPoints stof rest := by
        unfold gradientPoints
        rw [hf]
        simp only [List.filterMap_cons]
        rw [hpv]
      constructor
      · rw [paletteLoop, if_pos hk, if_pos hacc]
        simp only [hpv]
        rw [i1, hg]
        simp
      · rw [hg, hf, List.length_cons, List.length_cons, i2]
    · have hf : ((k, v) :: rest).filter (fun e => isGradientKey e.1) =
          rest.filter (fun e => isGradientKey e.1) := by
        rw [List.filter_cons_of_neg (by simpa using hk)]
      rw [hf] at hlen
      obtain ⟨i1, i2⟩ := ih acc hrest hlen
      have hg : gradientPoints stof ((k, v) :: rest) = gradientPoints stof rest := by
        unfold gradientPoints
        rw [hf]
      constructor
      · rw [paletteLoop, if_neg hk, i1, hg]
      · rw [hg, hf, i2]

theorem sorted_le_getLast (l : List Point) (hl : l ≠ [])
    (hs : l.Sorted (fun p q => p.pos ≤ q.pos)) :
    ∀ x ∈ l, x.pos ≤ (l.getLast hl).pos := by
  intro x hx
  have e := List.dropLast_append_getLast hl
  rw [← e] at hs hx
  rcases List.mem_append.mp hx with h | h
  · exact (List.pairwise_append.mp hs).2.2 x h _ (List.mem_singleton_self _)
  · simp only [List.mem_singleton] at h
    rw [h]

/-- C2, as stated, fails: `std::sort` may leave any of the points with equal
position last. For sixteen gradient points, the first red at position 0 and
the others blue at position 100, with a sorting function that keeps the promise
of `std::sort`, the palette ends with the second input point, colour (0, 0, 1),
and not with the closing point, colour (1, 0, 0). -/
theorem palette_tie_counterexample :
    StdSort sortLaterFirst ∧
      gradientPoints stofDigits mapTie =
        ⟨0, 255, 0, 0⟩ :: List.replicate 15 ⟨100, 0, 0, 255⟩ ∧
      getPalette stofDigits sortLaterFirst mapTie =
        some (⟨0, 1, 0, 0⟩ :: ⟨1, 1, 0, 0⟩ :: List.replicate 15 ⟨1, 0, 0, 1⟩) ∧
      (⟨0, 1, 0, 0⟩ :: ⟨1, 1, 0, 0⟩ :: List.replicate 15 ⟨1, 0, 0, 1⟩ : List Point).getLast? =
        some ⟨1, 0, 0, 1⟩ ∧
      closingOf ⟨0, 255, 0, 0⟩ = ⟨1, 1, 0, 0⟩ := by
  have hg : gradientPoints stofDigits mapTie =
      ⟨((0 : Nat) : ℚ), ((255 : Nat) : ℚ), ((0 : Nat) : ℚ), ((0 : Nat) : ℚ)⟩ ::
        List.replicate 15
          ⟨((100 : Nat) : ℚ), ((0 : Nat) : ℚ), ((0 : Nat) : ℚ), ((255 : Nat) : ℚ)⟩ := by rfl
  have hl : paletteLoop stofDigits mapTie [] =
      some (rescale ⟨((0 : Nat) : ℚ), ((255 : Nat) : ℚ), ((0 : Nat) : ℚ), ((0 : Nat) : ℚ)⟩ ::
        List.replicate 15
          (rescale ⟨((100 : Nat) : ℚ), ((0 : Nat) : ℚ), ((0 : Nat) : ℚ), ((255 : Nat) : ℚ)⟩)) := by
    rfl
  refine ⟨sortLaterFirst_stdSort, ?_, ?_, ?_, ?_⟩
  · rw [hg]
    simp
  · unfold getPalette
    rw [hl]
    simp [rescale, closingPoint, sortLaterFirst, List.insertionSort, List.orderedInsert,
      List.replicate]
  · simp [List.replicate]
  · simp [closingOf]

/-- C2, amended: for `N` gradient-point entries in the map (1 ≤ N ≤ 19) with
positions in [0,100] and colour channels in [0,255], `getPalette` returns
`N + 1` entries: the input points with position divided by 100 and colours by
255, and the closing point (position 1, colour of the first input point divided
by 255), sorted ascending by position, all positions and colours in [0,1]. The
last entry has position exactly 1 and is the closing point or, the order of
equal positions being left open by `std::sort`, an input point of position
100. -/
theorem getPalette_sorted_closed (stof : Str → Option ℚ) (sort : List Point → List Point)
    (m : Map) (N : Nat) (hsort : StdSort sort)
    (hN : (m.filter (fun e => isGradientKey e.1)).length = N) (h1 : 1 ≤ N) (h19 : N ≤ 19)
    (hrange : ∀ e ∈ m, isGradientKey e.1 = true →
      ∃ p, parse4f stof e.2 = some p ∧ (0 ≤ p.pos ∧ p.pos ≤ 100) ∧ (0 ≤ p.r ∧ p.r ≤ 255) ∧
        (0 ≤ p.g ∧ p.g ≤ 255) ∧ (0 ≤ p.b ∧ p.b ≤ 255)) :
    ∃ pal first last,
      getPalette stof sort m = some pal ∧
      (gradientPoints stof m).head? = some first ∧
      pal.length = N + 1 ∧
      pal.Sorted (fun p q => p.pos ≤ q.pos) ∧
      pal.Perm ((gradientPoints stof m).map rescale ++ [closingOf first]) ∧
      (∀ q ∈ pal, (0 ≤ q.pos ∧ q.pos ≤ 1) ∧ (0 ≤ q.r ∧ q.r ≤ 1) ∧ (0 ≤ q.g ∧ q.g ≤ 1) ∧
        (0 ≤ q.b ∧ q.b ≤ 1)) ∧
      pal.getLast? = some last ∧ last.pos = 1 ∧
      (last = closingOf first ∨
        ∃ p ∈ gradientPoints stof m, p.pos = 100 ∧ last = rescale p) := by
  obtain ⟨hloop, hlen⟩ := paletteLoop_eq stof m []
    (fun e he hk => (hrange e he hk).imp (fun p h => h.1)) (by simp only [List.length_nil]; omega)
  rw [hN] at hlen
  have hgp : ∀ p ∈ gradientPoints stof m, (0 ≤ p.pos ∧ p.pos ≤ 100) ∧ (0 ≤ p.r ∧ p.r ≤ 255) ∧
      (0 ≤ p.g ∧ p.g ≤ 255) ∧ (0 ≤ p.b ∧ p.b ≤ 255) := by
    intro p hp
    unfold gradientPoints at hp
    rw [List.mem_filterMap] at hp
    obtain ⟨e, he, hpe⟩ := hp
    rw [List.mem_filter] at he
    obtain ⟨p1, hp1, hb⟩ := hrange e he.1 he.2
    rw [hp1] at hpe
    rw [← Option.some.inj hpe]
    exact hb
  cases hgpeq : gradientPoints stof m with
  | nil =>
    rw [hgpeq] at hlen
    simp only [List.length_nil] at hlen
    omega
  | cons first tail =>
    rw [hgpeq] at hloop hlen hgp
    have hfirst := hgp first (List.mem_cons_self _ _)
    have hclose : closingPoint (List.map rescale (first :: tail)) = closingOf first := rfl
    have hpal : getPalette stof sort m =
        some (sort (List.map rescale (first :: tail) ++ [closingOf first])) := by
      unfold getPalette
      rw [hloop]
      simp only [List.nil_append]
      rw [if_pos (by rw [List.length_map, hlen]; omega), hclose]
    obtain ⟨hperm, hsorted⟩ := hsort (List.map rescale (first :: tail) ++ [closingOf first])
    have hmem : ∀ q ∈ sort (List.map rescale (first :: tail) ++ [closingOf first]),
        q = closingOf first ∨ ∃ p ∈ first :: tail, q = rescale p := by
      intro q hq
      have hq1 := hperm.subset hq
      rcases List.mem_append.mp hq1 with h | h
      · obtain ⟨p, hp, hpq⟩ := List.mem_map.mp h
        exact Or.inr ⟨p, hp, hpq.symm⟩
      · exact Or.inl (List.mem_singleton.mp h)
    have hbounds : ∀ q ∈ sort (List.map rescale (first :: tail) ++ [closingOf first]),
        (0 ≤ q.pos ∧ q.pos ≤ 1) ∧ (0 ≤ q.r ∧ q.r ≤ 1) ∧ (0 ≤ q.g ∧ q.g ≤ 1) ∧
          (0 ≤ q.b ∧ q.b ≤ 1) := by
      intro q hq
      rcases hmem q hq with h | ⟨p, hp, h⟩
      · rw [h]
        obtain ⟨_, ⟨r1, r2⟩, ⟨g1, g2⟩, ⟨b1, b2⟩⟩ := hfirst
        simp only [closingOf]
        refine ⟨⟨by norm_num, le_refl _⟩, ⟨?_, ?_⟩, ⟨?_, ?_⟩, ⟨?_, ?_⟩⟩
        · exact div_nonneg r1 (by norm_num)
        · rw [div_le_one (by norm_num)]; exact r2
        · exact div_nonneg g1 (by norm_num)
        · rw [div_le_one (by norm_num)]; exact g2
        · exact div_nonneg b1 (by norm_num)
        · rw [div_le_one (by norm_num)]; exact b2
      · rw [h]
        obtain ⟨⟨p1, p2⟩, ⟨r1, r2⟩, ⟨g1, g2⟩, ⟨b1, b2⟩⟩ := hgp p hp
        simp only [rescale]
        refine ⟨⟨?_, ?_⟩, ⟨?_, ?_⟩, ⟨?_, ?_⟩, ⟨?_, ?_⟩⟩
        · exact div_nonneg p1 (by norm_num)
        · rw [div_le_one (by norm_num)]; exact p2
        · exact div_nonneg r1 (by norm_num)
        · rw [div_le_one (by norm_num)]; exact r2
        · exact div_nonneg g1 (by norm_num)
        · rw [div_le_one (by norm_num)]; exact g2
        · exact div_nonneg b1 (by norm_num)
        · rw [div_le_one (by norm_num)]; exact b2
    have hlenpal : (sort (List.map rescale (first :: tail) ++ [closingOf first])).length =
        N + 1 := by
      rw [hperm.length_eq, List.length_append, List.length_map, hlen]
      rfl
    have hne : sort (List.map rescale (first :: tail) ++ [closingOf first]) ≠ [] := by
      intro h0
      rw [h0] at hlenpal
      simp at hlenpal
    have hcl : closingOf first ∈ sort (List.map rescale (first :: tail) ++ [closingOf first]) :=
      hperm.symm.subset (List.mem_append_right _ (List.mem_singleton_self _))
    have hlastmem := List.getLast_mem hne
    have hge := sorted_le_getLast _ hne hsorted _ hcl
    have hle := (hbounds _ hlastmem).1.2
    have hpos1 : ((sort (List.map rescale (first :: tail) ++ [closingOf first])).getLast hne).pos
        = 1 := le_antisymm hle hge
    refine ⟨_, first, _, hpal, rfl, hlenpal, hsorted, hperm, hbounds,
      List.getLast?_eq_getLast _ hne, hpos1, ?_⟩
    rcases hmem _ hlastmem with h | ⟨p, hp, h⟩
    · exact Or.inl h
    · refine Or.inr ⟨p, hp, ?_, h⟩
      rw [h] at hpos1
      simp only [rescale] at hpos1
      have h100 : (100 : ℚ) ≠ 0 := by norm_num
      field_simp at hpos1
      exact hpos1

theorem getPalette_sorted_closed_witness :
    ∃ pal first last,
      getPalette stofDigits sortLaterFirst (parseFile [] cfgTwo) = some pal ∧
      (gradientPoints stofDigits (parseFile [] cfgTwo)).head? = some first ∧
      pal.length = 2 + 1 ∧
      pal.Sorted (fun p q => p.pos ≤ q.pos) ∧
      pal.Perm ((gradientPoints stofDigits (parseFile [] cfgTwo)).map rescale ++
        [closingOf first]) ∧
      (∀ q ∈ pal, (0 ≤ q.pos ∧ q.pos ≤ 1) ∧ (0 ≤ q.r ∧ q.r ≤ 1) ∧ (0 ≤ q.g ∧ q.g ≤ 1) ∧
        (0 ≤ q.b ∧ q.b ≤ 1)) ∧
      pal.getLast? = some last ∧ last.pos = 1 ∧
      (last = closingOf first ∨
        ∃ p ∈ gradientPoints stofDigits (parseFile [] cfgTwo), p.pos = 100 ∧ last = rescale p) := by
  have hm : parseFile [] cfgTwo =
      [("gradient_point_1".toList, "0,255,0,0".toList),
        ("gradient_point_2".toList, "50,0,0,255".toList),
        ("smooth".toList, "true".toList)] := by decide
  refine getPalette_sorted_closed stofDigits sortLaterFirst (parseFile [] cfgTwo) 2
    sortLaterFirst_stdSort (by decide) (by decide) (by decide) ?_
  intro e he hk
  rw [hm] at he
  simp only [List.mem_cons, List.mem_singleton, List.not_mem_nil, or_false] at he
  rcases he with h | h | h
  · subst h
    refine ⟨⟨((0 : Nat) : ℚ), ((255 : Nat) : ℚ), ((0 : Nat) : ℚ), ((0 : Nat) : ℚ)⟩, rfl, ?_⟩
    norm_num
  · subst h
    refine ⟨⟨((50 : Nat) : ℚ), ((0 : Nat) : ℚ), ((0 : Nat) : ℚ), ((255 : Nat) : ℚ)⟩, rfl, ?_⟩
    norm_num
  · subst h
    exact absurd hk (by decide)

end Mandel
